import Mathlib

/-!
# Index engine version manager and target index

A shallow embedding of `internal/datacoord/index_engine_version_manager.go`, followed by
the target index exercised by `internal/querycoordv2/meta/target_manager_test.go`.

* Go `int32` values are integers confined to the signed 32-bit range.
* The Go map `versions map[int64]IndexEngineVersion` is a finite map with
  extensional equality; a `range` loop over it is a fold whose step commutes,
  so the result does not depend on the iteration order Go happens to pick.
* The mutex is held for the whole of every method, so every method is one
  atomic step: a function from the state before to the state after (and the
  returned value, for the getters).
* `log.Info` calls have no effect on the state and are left out.
* A `*sessionutil.Session` argument is the session it points to; a nil pointer is
  outside the model.
* Node identifiers (`int64`) are only stored and compared, never computed with, and
  are integers.
-/

namespace datacoord

/-- Go `int32`: an integer in the signed 32-bit range. -/
abbrev int32 : Type := {i : Int // -2147483648 ≤ i ∧ i ≤ 2147483647}

/-- Go `math.MaxInt32`. -/
def MaxInt32 : int32 := ⟨2147483647, by decide⟩

/-- The `int32` constant `0`. -/
def zero32 : int32 := ⟨0, by decide⟩

/-- The `sessionutil.IndexEngineVersion` record: the pair a node declares. -/
structure IndexEngineVersion where
  MinimalIndexVersion : int32
  CurrentIndexVersion : int32
deriving DecidableEq

/-- The fields of `sessionutil.Session` the manager reads: the node identifier
(`ServerID int64`) and the declared version pair. -/
structure Session where
  ServerID : Int
  IndexEngineVersion : IndexEngineVersion
deriving DecidableEq

/-- The manager state: `versions map[int64]sessionutil.IndexEngineVersion`. -/
structure IndexEngineVersionManager where
  versions : Finmap (fun _ : Int => IndexEngineVersion)
deriving DecidableEq

/-- Body of the loop in `GetCurrentIndexEngineVersion`:
`if version.CurrentIndexVersion < current { current = version.CurrentIndexVersion }`. -/
def currentStep (current : int32) (_ : Int) (version : IndexEngineVersion) : int32 :=
  if version.CurrentIndexVersion.val < current.val then version.CurrentIndexVersion else current

/-- Body of the loop in `GetMinimalIndexEngineVersion`:
`if version.MinimalIndexVersion > minimal { minimal = version.MinimalIndexVersion }`. -/
def minimalStep (minimal : int32) (_ : Int) (version : IndexEngineVersion) : int32 :=
  if version.MinimalIndexVersion.val > minimal.val then version.MinimalIndexVersion else minimal

namespace IndexEngineVersionManager

/-- The Go function `newIndexEngineVersionManager`: a manager with an empty map. -/
def newIndexEngineVersionManager : IndexEngineVersionManager :=
  { versions := ∅ }

/-- The method `addOrUpdate`: `m.versions[session.ServerID] = session.IndexEngineVersion`. -/
def addOrUpdate (m : IndexEngineVersionManager) (session : Session) :
    IndexEngineVersionManager :=
  { versions := m.versions.insert session.ServerID session.IndexEngineVersion }

/-- The method `Startup`: `addOrUpdate` for every session of the map
`sessions map[string]*Session`, given here as the list of its entries in the order the
`range` loop visits them. -/
def Startup (m : IndexEngineVersionManager) (sessions : List (String × Session)) :
    IndexEngineVersionManager :=
  sessions.foldl (fun acc entry => acc.addOrUpdate entry.2) m

/-- The method `AddNode`. -/
def AddNode (m : IndexEngineVersionManager) (session : Session) : IndexEngineVersionManager :=
  m.addOrUpdate session

/-- The method `RemoveNode`: `delete(m.versions, session.ServerID)`. -/
def RemoveNode (m : IndexEngineVersionManager) (session : Session) :
    IndexEngineVersionManager :=
  { versions := m.versions.erase session.ServerID }

/-- The method `Update`. -/
def Update (m : IndexEngineVersionManager) (session : Session) : IndexEngineVersionManager :=
  m.addOrUpdate session

/-- Go `len(m.versions)`. -/
def len (m : IndexEngineVersionManager) : Nat :=
  m.versions.keys.card

/-- The method `GetCurrentIndexEngineVersion`. -/
def GetCurrentIndexEngineVersion (m : IndexEngineVersionManager) : int32 :=
  if m.len = 0 then zero32
  else m.versions.foldl currentStep
    (fun d _ b₁ _ b₂ => by
      unfold currentStep
      split_ifs <;> first | rfl | (apply Subtype.ext; omega))
    MaxInt32

/-- The method `GetMinimalIndexEngineVersion`. -/
def GetMinimalIndexEngineVersion (m : IndexEngineVersionManager) : int32 :=
  if m.len = 0 then zero32
  else m.versions.foldl minimalStep
    (fun d _ b₁ _ b₂ => by
      unfold minimalStep
      split_ifs <;> first | rfl | (apply Subtype.ext; omega))
    zero32

end IndexEngineVersionManager

/-- Builds an `int32` from an integer, by the Go conversion `int32(i)` (wrapping). -/
def toInt32 (i : Int) : int32 :=
  ⟨(i + 2147483648) % 4294967296 - 2147483648, by omega⟩

/-- A session with the given identifier and declared pair. -/
def mkSession (id minimal current : Int) : Session :=
  { ServerID := id
    IndexEngineVersion :=
      { MinimalIndexVersion := toInt32 minimal, CurrentIndexVersion := toInt32 current } }

open IndexEngineVersionManager

/-- A fleet of two nodes: node 1 declares (minimal 1, current 2), node 2 declares
(minimal 3, current 4). -/
def fleetAB : IndexEngineVersionManager :=
  (newIndexEngineVersionManager.AddNode (mkSession 1 1 2)).AddNode (mkSession 2 3 4)

/-- A manager tracking the single node 1, which declares (minimal -1, current 5). -/
def negativeMinimal : IndexEngineVersionManager :=
  newIndexEngineVersionManager.AddNode (mkSession 1 (-1) 5)

/-- A manager tracking the single node 1, which declares (minimal 0, current 0). -/
def zeroCurrent : IndexEngineVersionManager :=
  newIndexEngineVersionManager.AddNode (mkSession 1 0 0)

/-- The snapshot used to exercise `Startup`: two sessions with distinct identifiers. -/
def snapshot23 : List (String × Session) :=
  [("node-2", mkSession 2 5 6), ("node-3", mkSession 3 7 8)]

/-- The value the specification gives for `GetMinimalIndexEngineVersion` once the start of
the accumulator is taken into account: `max(0, m)`, with `m` the maximum
`MinimalIndexVersion` over the tracked nodes (a specification-side definition, compared
with the getter in the theorems). -/
def maxZeroMinimal (m : IndexEngineVersionManager) : Int :=
  m.versions.keys.fold max 0 (fun id =>
    match m.versions.lookup id with
    | some v => v.MinimalIndexVersion.val
    | none => 0)

/-- A snapshot that names node 2 only, used to exercise `Startup` on a manager that
already tracks node 1. -/
def snapshot2 : List (String × Session) :=
  [("node-2", mkSession 2 5 6)]

end datacoord

/-! # Target index

`internal/querycoordv2/meta/target_manager.go` is not among the sources; only its test
suite is. The state and the operations below follow the specification of the target index
(sections 2, 3 and 4.2), with the names the test suite calls them by.
-/

namespace querycoordv2

/-- Modelled from the spec: the segment entry `{segmentID, collectionID, partitionID}`
(the fields of `datapb.SegmentInfo` the test suite sets; the record itself is not among
the sources). -/
structure SegmentInfo where
  ID : Int
  CollectionID : Int
  PartitionID : Int
deriving DecidableEq

/-- Modelled from the spec: the channel entry `{collectionID, channelName}` (the type
`DmChannel` is not among the sources). -/
structure DmChannel where
  CollectionID : Int
  ChannelName : String
deriving DecidableEq

/-- Modelled from the spec: the state of the target index (the type `TargetManager` is not
among the sources). `segments` and `dmChannels` are the flat global indices by segment
identifier and by channel name. `collectionSegments` is the chain collection → partition →
set of segments, kept as the finite set of the segment entries filed in it: an entry is
filed in the bucket named by its own `CollectionID` and `PartitionID`. `collectionChannels`
is the per-collection channel set, kept the same way. -/
structure TargetManager where
  segments : Finmap (fun _ : Int => SegmentInfo)
  dmChannels : Finmap (fun _ : String => DmChannel)
  collectionSegments : Finset SegmentInfo
  collectionChannels : Finset DmChannel
deriving DecidableEq

namespace TargetManager

/-- Modelled from the spec: `NewTargetManager` (not among the sources), the empty index. -/
def NewTargetManager : TargetManager :=
  { segments := ∅, dmChannels := ∅, collectionSegments := ∅, collectionChannels := ∅ }

/-- Modelled from the spec: `AddSegment` (not among the sources), "insert/overwrite into
the per-(collection,partition) segment set and the flat segment index". The flat index
holds one entry per segment identifier; the entry it held for the identifier, if any, is
the one overwritten, in the flat index and in the bucket it was filed in: the two indices
are updated together "so they cannot diverge" (section 9), and every operation "must leave
the dual-index invariant intact after every call" (section 4.2). -/
def AddSegment (mgr : TargetManager) (segment : SegmentInfo) : TargetManager :=
  { mgr with
    segments := mgr.segments.insert segment.ID segment
    collectionSegments :=
      match mgr.segments.lookup segment.ID with
      | some overwritten => insert segment (mgr.collectionSegments.erase overwritten)
      | none => insert segment mgr.collectionSegments }

/-- Modelled from the spec: `ContainSegment` (not among the sources), "membership via the
flat indices, independent of which collection owns the entry". -/
def ContainSegment (mgr : TargetManager) (segmentID : Int) : Bool :=
  decide (segmentID ∈ mgr.segments)

/-- Modelled from the spec: the segment set of the bucket (collection, partition) of the
chain collection → partition → set of segments. -/
def bucket (mgr : TargetManager) (collectionID partitionID : Int) : Finset SegmentInfo :=
  mgr.collectionSegments.filter
    (fun s => s.CollectionID = collectionID ∧ s.PartitionID = partitionID)

/-- Modelled from the spec: the partitions the chain holds under a collection. -/
def partitionsOf (mgr : TargetManager) (collectionID : Int) : Finset Int :=
  (mgr.collectionSegments.filter (fun s => s.CollectionID = collectionID)).image
    (fun s => s.PartitionID)

/-- Modelled from the spec: `GetSegmentsByCollection` (not among the sources): "with a
partition filter, restrict to that partition's segments within the collection; without it,
return the union across all of the collection's partitions". The optional trailing
argument of the Go call is an `Option`. -/
def GetSegmentsByCollection (mgr : TargetManager) (collectionID : Int)
    (partitionID : Option Int) : Finset SegmentInfo :=
  match partitionID with
  | some p => mgr.bucket collectionID p
  | none => (mgr.partitionsOf collectionID).biUnion (fun p => mgr.bucket collectionID p)

/-- Modelled from the spec: `AddDmChannel` (not among the sources), "insert/overwrite into
the per-collection channel set"; the flat index by channel name, which `ContainDmChannel`
reads, is updated with it. -/
def AddDmChannel (mgr : TargetManager) (channel : DmChannel) : TargetManager :=
  { mgr with
    dmChannels := mgr.dmChannels.insert channel.ChannelName channel
    collectionChannels := insert channel mgr.collectionChannels }

/-- Modelled from the spec: `GetDmChannelsByCollection` (not among the sources), the
channel set of the collection, "empty set if collection unknown". -/
def GetDmChannelsByCollection (mgr : TargetManager) (collectionID : Int) : Finset DmChannel :=
  mgr.collectionChannels.filter (fun ch => ch.CollectionID = collectionID)

/-- Modelled from the spec: `ContainDmChannel` (not among the sources), "membership via
the flat indices". -/
def ContainDmChannel (mgr : TargetManager) (channelName : String) : Bool :=
  decide (channelName ∈ mgr.dmChannels)

/-- Deletes every key of a finite set from a flat index (the order of the deletions does
not matter). -/
def eraseAll {α : Type} [DecidableEq α] {β : α → Type} (keys : Finset α) (m : Finmap β) :
    Finmap β :=
  @Multiset.foldr α (Finmap β) (fun k acc => acc.erase k)
    ⟨fun _ _ _ => Finmap.erase_erase⟩ m keys.val

/-- Modelled from the spec: `RemoveSegment` (not among the sources), "remove from the flat
index and from its owning (collection,partition) bucket; no-op if absent". The owning
bucket is the one named by the entry the flat index holds. -/
def RemoveSegment (mgr : TargetManager) (segmentID : Int) : TargetManager :=
  match mgr.segments.lookup segmentID with
  | none => mgr
  | some segment =>
    { mgr with
      segments := mgr.segments.erase segmentID
      collectionSegments := mgr.collectionSegments.erase segment }

/-- Modelled from the spec: `RemovePartition` (not among the sources), "remove every
segment filed under that partition identifier, regardless of which collection it belongs
to; leaves channels untouched". The segments filed under the partition leave the chain
and their identifiers leave the flat index. -/
def RemovePartition (mgr : TargetManager) (partitionID : Int) : TargetManager :=
  { mgr with
    segments :=
      eraseAll ((mgr.collectionSegments.filter
        (fun s => s.PartitionID = partitionID)).image (fun s => s.ID)) mgr.segments
    collectionSegments :=
      mgr.collectionSegments.filter (fun s => s.PartitionID ≠ partitionID) }

/-- Modelled from the spec: `RemoveCollection` (not among the sources), "remove all
channels for the collection and all segments under every partition of the collection,
across both flat and hierarchical indices". -/
def RemoveCollection (mgr : TargetManager) (collectionID : Int) : TargetManager :=
  { segments :=
      eraseAll ((mgr.collectionSegments.filter
        (fun s => s.CollectionID = collectionID)).image (fun s => s.ID)) mgr.segments
    dmChannels :=
      eraseAll ((mgr.collectionChannels.filter
        (fun ch => ch.CollectionID = collectionID)).image (fun ch => ch.ChannelName))
        mgr.dmChannels
    collectionSegments :=
      mgr.collectionSegments.filter (fun s => s.CollectionID ≠ collectionID)
    collectionChannels :=
      mgr.collectionChannels.filter (fun ch => ch.CollectionID ≠ collectionID) }

/-- Modelled from the spec: dual-index consistency (section 3), "every segment reachable
through the collection→partition→segment chain is also reachable through the flat
segmentID→entry index, and vice versa": an entry is filed in the chain exactly when it is
the entry the flat index holds for its identifier, and the flat index is keyed by the
identifier of the entry. -/
def DualIndexConsistent (mgr : TargetManager) : Prop :=
  (∀ s : SegmentInfo, s ∈ mgr.collectionSegments ↔ mgr.segments.lookup s.ID = some s) ∧
    ∀ (k : Int) (s : SegmentInfo), mgr.segments.lookup k = some s → s.ID = k

/-- The states of the target index: the empty index and what the five mutating operations
make of a state, for any arguments. -/
inductive Reachable : TargetManager → Prop
  | newTargetManager : Reachable NewTargetManager
  | addDmChannel (mgr : TargetManager) (channel : DmChannel) :
      Reachable mgr → Reachable (mgr.AddDmChannel channel)
  | addSegment (mgr : TargetManager) (segment : SegmentInfo) :
      Reachable mgr → Reachable (mgr.AddSegment segment)
  | removeSegment (mgr : TargetManager) (segmentID : Int) :
      Reachable mgr → Reachable (mgr.RemoveSegment segmentID)
  | removePartition (mgr : TargetManager) (partitionID : Int) :
      Reachable mgr → Reachable (mgr.RemovePartition partitionID)
  | removeCollection (mgr : TargetManager) (collectionID : Int) :
      Reachable mgr → Reachable (mgr.RemoveCollection collectionID)

end TargetManager

/-! ## The test suite's data and steps

`target_manager_test.go`: the suite's Go maps are functions on their keys, and the order in
which a `range` loop visits the keys of a map is an argument. -/

/-- The keys of the suite's maps `channels` and `segments`: `suite.collections`. -/
def suiteCollections : List Int := [1000, 1001]

/-- The suite's `partitions` map. -/
def suitePartitions (collection : Int) : List Int :=
  if collection = 1000 then [100, 101]
  else if collection = 1001 then [102, 103]
  else []

/-- The suite's `channels` map. -/
def suiteChannels (collection : Int) : List String :=
  if collection = 1000 then ["1000-dmc0", "1000-dmc1"]
  else if collection = 1001 then ["1001-dmc0", "1001-dmc1"]
  else []

/-- The suite's `segments` map: collection, partition ↦ segments. -/
def suiteSegments (collection partition : Int) : List Int :=
  if collection = 1000 ∧ partition = 100 then [1, 2]
  else if collection = 1000 ∧ partition = 101 then [3, 4]
  else if collection = 1001 ∧ partition = 102 then [5, 6]
  else if collection = 1001 ∧ partition = 103 then [7, 8]
  else []

/-- The suite's `SetupTest`: a new index, then `AddDmChannel` for every channel of every
collection, then `AddSegment` for every segment of every partition of every collection.
`channelOrder` and `segmentOrder` are the orders in which the two outer loops visit the
collections, `partitionOrder` the order in which the inner loop visits the partitions of a
collection. -/
def SetupTest (channelOrder segmentOrder : List Int) (partitionOrder : Int → List Int) :
    TargetManager :=
  let withChannels := channelOrder.foldl (fun mgr collection =>
    (suiteChannels collection).foldl (fun mgr channel =>
      mgr.AddDmChannel { CollectionID := collection, ChannelName := channel }) mgr)
    TargetManager.NewTargetManager
  segmentOrder.foldl (fun mgr collection =>
    (partitionOrder collection).foldl (fun mgr partition =>
      (suiteSegments collection partition).foldl (fun mgr segment =>
        mgr.AddSegment { ID := segment, CollectionID := collection, PartitionID := partition })
        mgr) mgr) withChannels

/-- The state changes of the suite's `TestRemove`: for every collection, `RemoveSegment`
of the first segment of each of its partitions and `RemovePartition` of its first
partition; then `RemoveCollection` of the first collection. `order` and `partitionOrder`
are the visiting orders of the two loops. -/
def TestRemove (mgr : TargetManager) (order : List Int) (partitionOrder : Int → List Int) :
    TargetManager :=
  let afterLoop := order.foldl (fun mgr collection =>
    let afterSegments := (partitionOrder collection).foldl (fun mgr partition =>
      match suiteSegments collection partition with
      | first :: _ => mgr.RemoveSegment first
      | [] => mgr) mgr
    match suitePartitions collection with
    | firstPartition :: _ => afterSegments.RemovePartition firstPartition
    | [] => afterSegments) mgr
  match suiteCollections with
  | firstCollection :: _ => afterLoop.RemoveCollection firstCollection
  | [] => afterLoop

/-- The two orders in which a loop can visit the suite's two collections. -/
def collectionOrder (swap : Bool) : List Int :=
  if swap then [1001, 1000] else [1000, 1001]

/-- The orders in which a loop can visit the partitions of the suite's collections: the
listed order, or its reverse, chosen for each collection. -/
def partitionOrders (swap1000 swap1001 : Bool) (collection : Int) : List Int :=
  if collection = 1000 then (if swap1000 then [101, 100] else [100, 101])
  else if collection = 1001 then (if swap1001 then [103, 102] else [102, 103])
  else []

/-- The index the suite expects after `TestRemove`: segment 8 under collection 1001,
partition 103, and the two channels of collection 1001. -/
def afterTestRemove : TargetManager :=
  ((TargetManager.NewTargetManager.AddDmChannel ⟨1001, "1001-dmc0"⟩).AddDmChannel
    ⟨1001, "1001-dmc1"⟩).AddSegment ⟨8, 1001, 103⟩


/-- A small index: channel "1000-dmc0" of collection 1000, segment 1 under partition 100
and segment 3 under partition 101 of collection 1000, segment 5 under partition 102 of
collection 1001. -/
def smallIndex : TargetManager :=
  (((TargetManager.NewTargetManager.AddDmChannel ⟨1000, "1000-dmc0"⟩).AddSegment
    ⟨1, 1000, 100⟩).AddSegment ⟨3, 1000, 101⟩).AddSegment ⟨5, 1001, 102⟩


end querycoordv2

namespace datacoord

open IndexEngineVersionManager


/-! ## Lemmas on the two folds -/

/-- The entries of the map as a list: lookups are membership, the fold is a list fold. -/
theorem exists_entries_list {δ : Type} (f : δ → Int → IndexEngineVersion → δ)
    (H : ∀ d a₁ b₁ a₂ b₂, f (f d a₁ b₁) a₂ b₂ = f (f d a₂ b₂) a₁ b₁) (d : δ)
    (s : Finmap (fun _ : Int => IndexEngineVersion)) :
    ∃ l : List (Sigma fun _ : Int => IndexEngineVersion),
      (∀ a b, s.lookup a = some b ↔ Sigma.mk a b ∈ l) ∧
      s.foldl f H d = l.foldl (fun acc e => f acc e.1 e.2) d := by
  induction s using Finmap.induction_on with
  | H a =>
    refine ⟨a.entries, fun k b => ?_, rfl⟩
    rw [Finmap.lookup_toFinmap]
    exact AList.mem_lookup_iff

theorem len_eq_zero_iff (m : IndexEngineVersionManager) :
    m.len = 0 ↔ ∀ id, id ∉ m.versions := by
  unfold IndexEngineVersionManager.len
  rw [Finset.card_eq_zero, Finset.eq_empty_iff_forall_not_mem]
  simp only [Finmap.mem_keys]

theorem len_ne_zero_of_lookup (m : IndexEngineVersionManager) (id : Int)
    (v : IndexEngineVersion) (h : m.versions.lookup id = some v) : m.len ≠ 0 := by
  intro h0
  exact (len_eq_zero_iff m).1 h0 id (Finmap.mem_of_lookup_eq_some h)

theorem foldl_currentStep_le (l : List (Sigma fun _ : Int => IndexEngineVersion)) :
    ∀ d : int32, (l.foldl (fun acc e => currentStep acc e.1 e.2) d).val ≤ d.val ∧
      ∀ e ∈ l, (l.foldl (fun acc e => currentStep acc e.1 e.2) d).val
        ≤ e.2.CurrentIndexVersion.val := by
  induction l with
  | nil => intro d; simp
  | cons x xs ih =>
    intro d
    simp only [List.foldl_cons, List.mem_cons, forall_eq_or_imp]
    obtain ⟨h1, h2⟩ := ih (currentStep d x.1 x.2)
    have h3 : (currentStep d x.1 x.2).val ≤ d.val ∧
        (currentStep d x.1 x.2).val ≤ x.2.CurrentIndexVersion.val := by
      unfold currentStep; split_ifs <;> constructor <;> omega
    exact ⟨le_trans h1 h3.1, le_trans h1 h3.2, h2⟩

theorem foldl_currentStep_mem (l : List (Sigma fun _ : Int => IndexEngineVersion)) :
    ∀ d : int32, l.foldl (fun acc e => currentStep acc e.1 e.2) d = d ∨
      ∃ e ∈ l, l.foldl (fun acc e => currentStep acc e.1 e.2) d = e.2.CurrentIndexVersion := by
  induction l with
  | nil => intro d; simp
  | cons x xs ih =>
    intro d
    simp only [List.foldl_cons, List.mem_cons, exists_eq_or_imp]
    rcases ih (currentStep d x.1 x.2) with h | ⟨e, he, h⟩
    · rw [h]
      unfold currentStep
      split_ifs
      · exact Or.inr (Or.inl rfl)
      · exact Or.inl rfl
    · exact Or.inr (Or.inr ⟨e, he, h⟩)

theorem foldl_minimalStep_ge (l : List (Sigma fun _ : Int => IndexEngineVersion)) :
    ∀ d : int32, d.val ≤ (l.foldl (fun acc e => minimalStep acc e.1 e.2) d).val ∧
      ∀ e ∈ l, e.2.MinimalIndexVersion.val
        ≤ (l.foldl (fun acc e => minimalStep acc e.1 e.2) d).val := by
  induction l with
  | nil => intro d; simp
  | cons x xs ih =>
    intro d
    simp only [List.foldl_cons, List.mem_cons, forall_eq_or_imp]
    obtain ⟨h1, h2⟩ := ih (minimalStep d x.1 x.2)
    have h3 : d.val ≤ (minimalStep d x.1 x.2).val ∧
        x.2.MinimalIndexVersion.val ≤ (minimalStep d x.1 x.2).val := by
      unfold minimalStep; split_ifs <;> constructor <;> omega
    exact ⟨le_trans h3.1 h1, le_trans h3.2 h1, h2⟩

theorem foldl_minimalStep_mem (l : List (Sigma fun _ : Int => IndexEngineVersion)) :
    ∀ d : int32, l.foldl (fun acc e => minimalStep acc e.1 e.2) d = d ∨
      ∃ e ∈ l, l.foldl (fun acc e => minimalStep acc e.1 e.2) d = e.2.MinimalIndexVersion := by
  induction l with
  | nil => intro d; simp
  | cons x xs ih =>
    intro d
    simp only [List.foldl_cons, List.mem_cons, exists_eq_or_imp]
    rcases ih (minimalStep d x.1 x.2) with h | ⟨e, he, h⟩
    · rw [h]
      unfold minimalStep
      split_ifs
      · exact Or.inr (Or.inl rfl)
      · exact Or.inl rfl
    · exact Or.inr (Or.inr ⟨e, he, h⟩)

/-! ## The aggregate getters -/

/-- C1: when at least one node is tracked, `GetCurrentIndexEngineVersion` returns the
minimum of the tracked `CurrentIndexVersion` values: it is the value of some tracked node
and no tracked node has a smaller one. -/
theorem getCurrent_eq_minimum (m : IndexEngineVersionManager)
    (h : ∃ id, id ∈ m.versions) :
    (∃ id v, m.versions.lookup id = some v ∧
        m.GetCurrentIndexEngineVersion = v.CurrentIndexVersion) ∧
      ∀ id v, m.versions.lookup id = some v →
        m.GetCurrentIndexEngineVersion.val ≤ v.CurrentIndexVersion.val := by
  obtain ⟨id0, hid0⟩ := h
  obtain ⟨v0, hv0⟩ := Finmap.mem_iff.1 hid0
  have hlen : m.len ≠ 0 := len_ne_zero_of_lookup m id0 v0 hv0
  unfold GetCurrentIndexEngineVersion
  rw [if_neg hlen]
  obtain ⟨l, hl, hfold⟩ := exists_entries_list currentStep
    (fun d _ b₁ _ b₂ => by
      unfold currentStep
      split_ifs <;> first | rfl | (apply Subtype.ext; omega)) MaxInt32 m.versions
  rw [hfold]
  obtain ⟨hle, hall⟩ := foldl_currentStep_le l MaxInt32
  refine ⟨?_, fun id v hv => hall ⟨id, v⟩ ((hl id v).1 hv)⟩
  rcases foldl_currentStep_mem l MaxInt32 with hd | ⟨e, he, heq⟩
  · refine ⟨id0, v0, hv0, ?_⟩
    have h1 := hall ⟨id0, v0⟩ ((hl id0 v0).1 hv0)
    have h2 := v0.CurrentIndexVersion.property.2
    rw [hd] at h1 ⊢
    apply Subtype.ext
    have h3 : MaxInt32.val = 2147483647 := rfl
    simp only at h1
    omega
  · exact ⟨e.1, e.2, (hl e.1 e.2).2 he, heq⟩

/-- The statement of C1 at the two-node fleet `fleetAB`. -/
theorem getCurrent_eq_minimum_witness :
    (∃ id, id ∈ fleetAB.versions) ∧
      ((∃ id v, fleetAB.versions.lookup id = some v ∧
          fleetAB.GetCurrentIndexEngineVersion = v.CurrentIndexVersion) ∧
        ∀ id v, fleetAB.versions.lookup id = some v →
          fleetAB.GetCurrentIndexEngineVersion.val ≤ v.CurrentIndexVersion.val) :=
  ⟨⟨1, by decide⟩, getCurrent_eq_minimum fleetAB ⟨1, by decide⟩⟩

/-- C2 as stated fails: the manager tracking the single node 1 with minimal version -1
returns 0 from `GetMinimalIndexEngineVersion`, which is the minimal version of no tracked
node and in particular not their maximum. -/
theorem getMinimal_ne_maximum_negative :
    1 ∈ negativeMinimal.versions ∧
      negativeMinimal.GetMinimalIndexEngineVersion = zero32 ∧
      ¬ ∃ id v, negativeMinimal.versions.lookup id = some v ∧
        negativeMinimal.GetMinimalIndexEngineVersion = v.MinimalIndexVersion := by
  refine ⟨by decide, by decide, ?_⟩
  rintro ⟨id, v, hv, heq⟩
  have hget : negativeMinimal.GetMinimalIndexEngineVersion = zero32 := by decide
  rw [hget] at heq
  by_cases hid : id = 1
  · subst hid
    have h1 : negativeMinimal.versions.lookup 1 = some (mkSession 1 (-1) 5).IndexEngineVersion :=
      Finmap.lookup_insert _
    rw [h1] at hv
    cases hv
    revert heq
    decide
  · have h1 : negativeMinimal.versions.lookup id = none :=
      (Finmap.lookup_insert_of_ne _ hid).trans (Finmap.lookup_empty id)
    rw [h1] at hv
    cases hv

/-- C2, amended: when some tracked node declares a non-negative `MinimalIndexVersion`,
`GetMinimalIndexEngineVersion` returns the maximum of the tracked `MinimalIndexVersion`
values: it is the value of some tracked node and no tracked node has a larger one. -/
theorem getMinimal_eq_maximum (m : IndexEngineVersionManager)
    (h : ∃ id v, m.versions.lookup id = some v ∧ 0 ≤ v.MinimalIndexVersion.val) :
    (∃ id v, m.versions.lookup id = some v ∧
        m.GetMinimalIndexEngineVersion = v.MinimalIndexVersion) ∧
      ∀ id v, m.versions.lookup id = some v →
        v.MinimalIndexVersion.val ≤ m.GetMinimalIndexEngineVersion.val := by
  obtain ⟨id0, v0, hv0, hnn⟩ := h
  have hlen : m.len ≠ 0 := len_ne_zero_of_lookup m id0 v0 hv0
  unfold GetMinimalIndexEngineVersion
  rw [if_neg hlen]
  obtain ⟨l, hl, hfold⟩ := exists_entries_list minimalStep
    (fun d _ b₁ _ b₂ => by
      unfold minimalStep
      split_ifs <;> first | rfl | (apply Subtype.ext; omega)) zero32 m.versions
  rw [hfold]
  obtain ⟨hle, hall⟩ := foldl_minimalStep_ge l zero32
  refine ⟨?_, fun id v hv => hall ⟨id, v⟩ ((hl id v).1 hv)⟩
  rcases foldl_minimalStep_mem l zero32 with hd | ⟨e, he, heq⟩
  · refine ⟨id0, v0, hv0, ?_⟩
    have h1 := hall ⟨id0, v0⟩ ((hl id0 v0).1 hv0)
    rw [hd] at h1 ⊢
    apply Subtype.ext
    have h3 : zero32.val = 0 := rfl
    simp only at h1
    omega
  · exact ⟨e.1, e.2, (hl e.1 e.2).2 he, heq⟩

/-- The amended C2 at the two-node fleet `fleetAB`, whose node 2 declares minimal 3. -/
theorem getMinimal_eq_maximum_witness :
    (∃ id v, fleetAB.versions.lookup id = some v ∧ 0 ≤ v.MinimalIndexVersion.val) ∧
      ((∃ id v, fleetAB.versions.lookup id = some v ∧
          fleetAB.GetMinimalIndexEngineVersion = v.MinimalIndexVersion) ∧
        ∀ id v, fleetAB.versions.lookup id = some v →
          v.MinimalIndexVersion.val ≤ fleetAB.GetMinimalIndexEngineVersion.val) :=
  ⟨⟨2, (mkSession 2 3 4).IndexEngineVersion, by decide, by decide⟩,
    getMinimal_eq_maximum fleetAB ⟨2, (mkSession 2 3 4).IndexEngineVersion, by decide, by decide⟩⟩

/-- C3: a manager that tracks no node returns 0 from both getters. -/
theorem getters_zero_of_empty (m : IndexEngineVersionManager)
    (h : ∀ id, id ∉ m.versions) :
    m.GetCurrentIndexEngineVersion = zero32 ∧ m.GetMinimalIndexEngineVersion = zero32 := by
  have hlen : m.len = 0 := (len_eq_zero_iff m).2 h
  unfold GetCurrentIndexEngineVersion GetMinimalIndexEngineVersion
  rw [if_pos hlen, if_pos hlen]
  exact ⟨rfl, rfl⟩

/-- The statement of C3 at the freshly constructed manager. -/
theorem getters_zero_of_empty_witness :
    (∀ id, id ∉ newIndexEngineVersionManager.versions) ∧
      newIndexEngineVersionManager.GetCurrentIndexEngineVersion = zero32 ∧
      newIndexEngineVersionManager.GetMinimalIndexEngineVersion = zero32 :=
  ⟨fun _ => Finmap.not_mem_empty, getters_zero_of_empty newIndexEngineVersionManager
    (fun _ => Finmap.not_mem_empty)⟩

/-! ## Upsert and delete -/

theorem versions_ext (m₁ m₂ : IndexEngineVersionManager)
    (h : ∀ id, m₁.versions.lookup id = m₂.versions.lookup id) : m₁ = m₂ := by
  cases m₁; cases m₂
  simp only [IndexEngineVersionManager.mk.injEq]
  exact Finmap.ext_lookup h

theorem lookup_addOrUpdate_self (m : IndexEngineVersionManager) (v : Session) :
    (m.addOrUpdate v).versions.lookup v.ServerID = some v.IndexEngineVersion :=
  Finmap.lookup_insert _

theorem lookup_addOrUpdate_of_ne (m : IndexEngineVersionManager) (v : Session) (id : Int)
    (h : id ≠ v.ServerID) :
    (m.addOrUpdate v).versions.lookup id = m.versions.lookup id :=
  Finmap.lookup_insert_of_ne _ h

theorem lookup_removeNode_self (m : IndexEngineVersionManager) (v : Session) :
    (m.RemoveNode v).versions.lookup v.ServerID = none :=
  Finmap.lookup_erase _ _

theorem lookup_removeNode_of_ne (m : IndexEngineVersionManager) (v : Session) (id : Int)
    (h : id ≠ v.ServerID) :
    (m.RemoveNode v).versions.lookup id = m.versions.lookup id :=
  Finmap.lookup_erase_ne h

theorem removeNode_of_not_mem (m : IndexEngineVersionManager) (v : Session)
    (h : v.ServerID ∉ m.versions) : m.RemoveNode v = m := by
  apply versions_ext
  intro id
  by_cases hid : id = v.ServerID
  · subst hid
    rw [lookup_removeNode_self, Finmap.lookup_eq_none.2 h]
  · exact lookup_removeNode_of_ne m v id hid

theorem removeNode_addOrUpdate_of_not_mem (m : IndexEngineVersionManager) (v : Session)
    (h : v.ServerID ∉ m.versions) : (m.addOrUpdate v).RemoveNode v = m := by
  apply versions_ext
  intro id
  by_cases hid : id = v.ServerID
  · subst hid
    rw [lookup_removeNode_self, Finmap.lookup_eq_none.2 h]
  · rw [lookup_removeNode_of_ne _ v id hid, lookup_addOrUpdate_of_ne m v id hid]

theorem addOrUpdate_overwrite (m : IndexEngineVersionManager) (w v : Session)
    (h : w.ServerID = v.ServerID) : (m.addOrUpdate w).addOrUpdate v = m.addOrUpdate v := by
  apply versions_ext
  intro id
  by_cases hid : id = v.ServerID
  · subst hid
    rw [lookup_addOrUpdate_self, lookup_addOrUpdate_self]
  · rw [lookup_addOrUpdate_of_ne _ v id hid, lookup_addOrUpdate_of_ne _ v id hid,
      lookup_addOrUpdate_of_ne _ w id (h ▸ hid)]

/-- C4 as stated fails: in the fleet `fleetAB` node 1 is already tracked; adding node 1
again and then removing it drops node 1, and `GetCurrentIndexEngineVersion` moves from 2
(before the add) to 4. -/
theorem addNode_removeNode_tracked_changes_current :
    fleetAB.GetCurrentIndexEngineVersion = toInt32 2 ∧
      ((fleetAB.AddNode (mkSession 1 1 2)).RemoveNode
        (mkSession 1 1 2)).GetCurrentIndexEngineVersion = toInt32 4 := by
  decide

/-- C4, amended: for a node version `v` whose identifier is not tracked, `AddNode v`
followed by `RemoveNode` of that identifier leaves both getters at the values they had
before the add. -/
theorem addNode_removeNode_restores_getters (m : IndexEngineVersionManager) (v : Session)
    (h : v.ServerID ∉ m.versions) :
    ((m.AddNode v).RemoveNode v).GetCurrentIndexEngineVersion
        = m.GetCurrentIndexEngineVersion ∧
      ((m.AddNode v).RemoveNode v).GetMinimalIndexEngineVersion
        = m.GetMinimalIndexEngineVersion := by
  unfold AddNode
  rw [removeNode_addOrUpdate_of_not_mem m v h]
  exact ⟨rfl, rfl⟩

/-- The amended C4 at `fleetAB` and the untracked node 3 declaring (minimal 7, current 1). -/
theorem addNode_removeNode_restores_getters_witness :
    (mkSession 3 7 1).ServerID ∉ fleetAB.versions ∧
      (((fleetAB.AddNode (mkSession 3 7 1)).RemoveNode
          (mkSession 3 7 1)).GetCurrentIndexEngineVersion
          = fleetAB.GetCurrentIndexEngineVersion ∧
        ((fleetAB.AddNode (mkSession 3 7 1)).RemoveNode
          (mkSession 3 7 1)).GetMinimalIndexEngineVersion
          = fleetAB.GetMinimalIndexEngineVersion) :=
  ⟨by decide, addNode_removeNode_restores_getters fleetAB (mkSession 3 7 1) (by decide)⟩

/-- C5: `AddNode v` and `Update v` produce the same state, in which the identifier of `v`
maps to the pair of `v` and every other identifier maps to what it mapped to before;
the two are interchangeable, applying either twice equals applying it once, and a later
write for an identifier replaces an earlier one. -/
theorem addNode_update_upsert (m : IndexEngineVersionManager) (v : Session) :
    m.AddNode v = m.Update v ∧
      (m.AddNode v).versions.lookup v.ServerID = some v.IndexEngineVersion ∧
      (∀ id, id ≠ v.ServerID → (m.AddNode v).versions.lookup id = m.versions.lookup id) ∧
      (m.AddNode v).AddNode v = m.AddNode v ∧
      (m.Update v).Update v = m.Update v ∧
      (m.AddNode v).Update v = m.AddNode v ∧
      (m.Update v).AddNode v = m.Update v ∧
      (∀ w : Session, w.ServerID = v.ServerID →
        (m.AddNode w).AddNode v = m.AddNode v ∧ (m.Update w).Update v = m.Update v ∧
        (m.AddNode w).Update v = m.Update v ∧ (m.Update w).AddNode v = m.AddNode v) := by
  unfold AddNode Update
  refine ⟨rfl, lookup_addOrUpdate_self m v, fun id hid => lookup_addOrUpdate_of_ne m v id hid,
    addOrUpdate_overwrite m v v rfl, addOrUpdate_overwrite m v v rfl,
    addOrUpdate_overwrite m v v rfl, addOrUpdate_overwrite m v v rfl, fun w hw => ?_⟩
  exact ⟨addOrUpdate_overwrite m w v hw, addOrUpdate_overwrite m w v hw,
    addOrUpdate_overwrite m w v hw, addOrUpdate_overwrite m w v hw⟩

/-- C6: `RemoveNode` leaves the state unchanged when the identifier is not tracked;
in every case the identifier is untracked afterwards, every other identifier maps to what
it mapped to before, and a second `RemoveNode` of the same identifier changes nothing.
`RemoveNode` is a total function to states: it has no error outcome. -/
theorem removeNode_delete (m : IndexEngineVersionManager) (s : Session) :
    (s.ServerID ∉ m.versions → m.RemoveNode s = m) ∧
      (m.RemoveNode s).versions.lookup s.ServerID = none ∧
      s.ServerID ∉ (m.RemoveNode s).versions ∧
      (∀ id, id ≠ s.ServerID → (m.RemoveNode s).versions.lookup id = m.versions.lookup id) ∧
      (m.RemoveNode s).RemoveNode s = m.RemoveNode s := by
  have hnot : s.ServerID ∉ (m.RemoveNode s).versions :=
    Finmap.lookup_eq_none.1 (lookup_removeNode_self m s)
  exact ⟨removeNode_of_not_mem m s, lookup_removeNode_self m s, hnot,
    fun id hid => lookup_removeNode_of_ne m s id hid,
    removeNode_of_not_mem (m.RemoveNode s) s hnot⟩

/-! ## Bulk load -/

theorem startup_eq_foldl (m : IndexEngineVersionManager) (sessions : List (String × Session)) :
    m.Startup sessions = (sessions.map Prod.snd).foldl addOrUpdate m := by
  unfold Startup
  rw [List.foldl_map]

theorem lookup_foldl_addOrUpdate_of_not_mem (l : List Session) :
    ∀ (m : IndexEngineVersionManager) (id : Int), id ∉ l.map Session.ServerID →
      (l.foldl addOrUpdate m).versions.lookup id = m.versions.lookup id := by
  induction l with
  | nil => intro m id _; rfl
  | cons x xs ih =>
    intro m id h
    simp only [List.map_cons, List.mem_cons, not_or] at h
    rw [List.foldl_cons, ih (m.addOrUpdate x) id h.2]
    exact lookup_addOrUpdate_of_ne m x id h.1

theorem lookup_foldl_addOrUpdate_of_mem (l : List Session) :
    ∀ (m : IndexEngineVersionManager), (l.map Session.ServerID).Nodup → ∀ e ∈ l,
      (l.foldl addOrUpdate m).versions.lookup e.ServerID = some e.IndexEngineVersion := by
  induction l with
  | nil => intro m _ e he; cases he
  | cons x xs ih =>
    intro m hnd e he
    simp only [List.map_cons, List.nodup_cons] at hnd
    rw [List.foldl_cons]
    rcases List.mem_cons.1 he with hx | hxs
    · subst hx
      rw [lookup_foldl_addOrUpdate_of_not_mem xs (m.addOrUpdate e) e.ServerID hnd.1]
      exact lookup_addOrUpdate_self m e
    · exact ih (m.addOrUpdate x) hnd.2 e hxs

theorem foldl_addOrUpdate_perm (l₁ l₂ : List Session) (m : IndexEngineVersionManager)
    (hnd : (l₂.map Session.ServerID).Nodup) (hp : l₁.Perm l₂) :
    l₁.foldl addOrUpdate m = l₂.foldl addOrUpdate m := by
  have hnd₁ : (l₁.map Session.ServerID).Nodup := (hp.map Session.ServerID).nodup_iff.2 hnd
  apply versions_ext
  intro id
  by_cases hid : id ∈ l₂.map Session.ServerID
  · obtain ⟨e, he, rfl⟩ := List.mem_map.1 hid
    rw [lookup_foldl_addOrUpdate_of_mem l₂ m hnd e he,
      lookup_foldl_addOrUpdate_of_mem l₁ m hnd₁ e (hp.mem_iff.2 he)]
  · have hid₁ : id ∉ l₁.map Session.ServerID :=
      fun h => hid ((hp.map Session.ServerID).mem_iff.1 h)
    rw [lookup_foldl_addOrUpdate_of_not_mem l₂ m id hid,
      lookup_foldl_addOrUpdate_of_not_mem l₁ m id hid₁]

/-- C7: for a snapshot whose node identifiers are pairwise distinct, after `Startup`
every session of the snapshot is tracked with the pair it declares, the resulting state is
the one reached by `AddNode` once per session in any order, and it does not depend on the
order in which the loop visits the snapshot. -/
theorem startup_distinct (m : IndexEngineVersionManager) (sessions : List (String × Session))
    (h : (sessions.map (fun e => e.2.ServerID)).Nodup) :
    (∀ e ∈ sessions,
        (m.Startup sessions).versions.lookup e.2.ServerID = some e.2.IndexEngineVersion) ∧
      (∀ order : List Session, order.Perm (sessions.map Prod.snd) →
        order.foldl AddNode m = m.Startup sessions) ∧
      (∀ visited : List (String × Session), visited.Perm sessions →
        m.Startup visited = m.Startup sessions) := by
  have hnd : ((sessions.map Prod.snd).map Session.ServerID).Nodup := by
    rw [List.map_map]; exact h
  refine ⟨fun e he => ?_, fun order hp => ?_, fun visited hp => ?_⟩
  · rw [startup_eq_foldl]
    exact lookup_foldl_addOrUpdate_of_mem _ m hnd e.2 (List.mem_map.2 ⟨e, he, rfl⟩)
  · rw [startup_eq_foldl]
    exact foldl_addOrUpdate_perm order _ m hnd hp
  · rw [startup_eq_foldl, startup_eq_foldl]
    exact foldl_addOrUpdate_perm _ _ m hnd (hp.map Prod.snd)

/-- The statement of C7 at the fleet `fleetAB` and the snapshot `snapshot23`. -/
theorem startup_distinct_witness :
    (snapshot23.map (fun e => e.2.ServerID)).Nodup ∧
      ((∀ e ∈ snapshot23,
          (fleetAB.Startup snapshot23).versions.lookup e.2.ServerID
            = some e.2.IndexEngineVersion) ∧
        (∀ order : List Session, order.Perm (snapshot23.map Prod.snd) →
          order.foldl AddNode fleetAB = fleetAB.Startup snapshot23) ∧
        (∀ visited : List (String × Session), visited.Perm snapshot23 →
          fleetAB.Startup visited = fleetAB.Startup snapshot23)) :=
  ⟨by decide, startup_distinct fleetAB snapshot23 (by decide)⟩

/-! ## Unsatisfiable fleets and the empty sentinel -/

/-- C8: in the fleet `fleetAB` (node 1 = {minimal 1, current 2}, node 2 = {minimal 3,
current 4}) every tracked node satisfies `0 ≤ minimal ≤ current`, yet
`GetMinimalIndexEngineVersion` returns 3, the maximum of the minimal versions, and
`GetCurrentIndexEngineVersion` returns 2, the minimum of the current versions: the
fleet-wide minimal bound is strictly above the fleet-wide current bound and both getters
return plain `int32` values. -/
theorem unsatisfiable_fleet_undetected :
    fleetAB.versions.lookup 1 = some (mkSession 1 1 2).IndexEngineVersion ∧
      fleetAB.versions.lookup 2 = some (mkSession 2 3 4).IndexEngineVersion ∧
      (∀ id v, fleetAB.versions.lookup id = some v →
        0 ≤ v.MinimalIndexVersion.val ∧
          v.MinimalIndexVersion.val ≤ v.CurrentIndexVersion.val) ∧
      fleetAB.GetMinimalIndexEngineVersion = toInt32 3 ∧
      fleetAB.GetCurrentIndexEngineVersion = toInt32 2 ∧
      fleetAB.GetCurrentIndexEngineVersion.val < fleetAB.GetMinimalIndexEngineVersion.val := by
  refine ⟨by decide, by decide, ?_, by decide, by decide, by decide⟩
  intro id v hv
  by_cases h2 : id = 2
  · subst h2
    have h : fleetAB.versions.lookup 2 = some (mkSession 2 3 4).IndexEngineVersion := by decide
    rw [h] at hv
    cases hv
    decide
  · by_cases h1 : id = 1
    · subst h1
      have h : fleetAB.versions.lookup 1 = some (mkSession 1 1 2).IndexEngineVersion := by
        decide
      rw [h] at hv
      cases hv
      decide
    · have h : fleetAB.versions.lookup id = none :=
        (Finmap.lookup_insert_of_ne _ h2).trans
          ((Finmap.lookup_insert_of_ne _ h1).trans (Finmap.lookup_empty id))
      rw [h] at hv
      cases hv

/-- C9 as stated fails: the manager `zeroCurrent` tracks node 1, which declares current
version 0, and `GetCurrentIndexEngineVersion` returns 0 although a node is tracked. -/
theorem getCurrent_zero_nonempty :
    zeroCurrent.GetCurrentIndexEngineVersion = zero32 ∧ 1 ∈ zeroCurrent.versions := by
  decide

theorem getCurrent_attained (m : IndexEngineVersionManager) (id0 : Int)
    (v0 : IndexEngineVersion) (hv0 : m.versions.lookup id0 = some v0) :
    ∃ id v, m.versions.lookup id = some v ∧
      m.GetCurrentIndexEngineVersion = v.CurrentIndexVersion := by
  have hlen : m.len ≠ 0 := len_ne_zero_of_lookup m id0 v0 hv0
  unfold GetCurrentIndexEngineVersion
  rw [if_neg hlen]
  obtain ⟨l, hl, hfold⟩ := exists_entries_list currentStep
    (fun d _ b₁ _ b₂ => by
      unfold currentStep
      split_ifs <;> first | rfl | (apply Subtype.ext; omega)) MaxInt32 m.versions
  rw [hfold]
  rcases foldl_currentStep_mem l MaxInt32 with hd | ⟨e, he, heq⟩
  · refine ⟨id0, v0, hv0, ?_⟩
    have h1 := (foldl_currentStep_le l MaxInt32).2 ⟨id0, v0⟩ ((hl id0 v0).1 hv0)
    have h2 := v0.CurrentIndexVersion.property.2
    rw [hd] at h1 ⊢
    apply Subtype.ext
    have h3 : MaxInt32.val = 2147483647 := rfl
    simp only at h1
    omega
  · exact ⟨e.1, e.2, (hl e.1 e.2).2 he, heq⟩

/-- C9, amended: for a manager state in which no tracked node declares current version 0,
`GetCurrentIndexEngineVersion` returns 0 exactly when no node is tracked. -/
theorem getCurrent_zero_iff_empty (m : IndexEngineVersionManager)
    (h : ∀ id v, m.versions.lookup id = some v → v.CurrentIndexVersion ≠ zero32) :
    m.GetCurrentIndexEngineVersion = zero32 ↔ ∀ id, id ∉ m.versions := by
  constructor
  · intro hget id hid
    obtain ⟨v0, hv0⟩ := Finmap.mem_iff.1 hid
    obtain ⟨id1, v1, hv1, heq⟩ := getCurrent_attained m id v0 hv0
    exact h id1 v1 hv1 (heq.symm.trans hget)
  · intro hempty
    unfold GetCurrentIndexEngineVersion
    rw [if_pos ((len_eq_zero_iff m).2 hempty)]

/-- The amended C9 at the fleet `fleetAB`, whose nodes declare current versions 2 and 4:
the getter does not return 0 and a node is tracked. -/
theorem getCurrent_zero_iff_empty_witness :
    (∀ id v, fleetAB.versions.lookup id = some v → v.CurrentIndexVersion ≠ zero32) ∧
      (fleetAB.GetCurrentIndexEngineVersion = zero32 ↔ ∀ id, id ∉ fleetAB.versions) := by
  have h : ∀ id v, fleetAB.versions.lookup id = some v → v.CurrentIndexVersion ≠ zero32 := by
    intro id v hv
    by_cases h2 : id = 2
    · subst h2
      have h : fleetAB.versions.lookup 2 = some (mkSession 2 3 4).IndexEngineVersion := by
        decide
      rw [h] at hv
      cases hv
      decide
    · by_cases h1 : id = 1
      · subst h1
        have h : fleetAB.versions.lookup 1 = some (mkSession 1 1 2).IndexEngineVersion := by
          decide
        rw [h] at hv
        cases hv
        decide
      · have h : fleetAB.versions.lookup id = none :=
          (Finmap.lookup_insert_of_ne _ h2).trans
            ((Finmap.lookup_insert_of_ne _ h1).trans (Finmap.lookup_empty id))
        rw [h] at hv
        cases hv
  exact ⟨h, getCurrent_zero_iff_empty fleetAB h⟩

/-! ## The zero start of the maximum, monotonicity, merging -/

theorem not_tracked_of_len_zero (m : IndexEngineVersionManager) (h : m.len = 0) (id : Int)
    (v : IndexEngineVersion) : m.versions.lookup id ≠ some v :=
  fun hv => len_ne_zero_of_lookup m id v hv h

theorem getMinimal_bounds (m : IndexEngineVersionManager) :
    0 ≤ m.GetMinimalIndexEngineVersion.val ∧
      (∀ id v, m.versions.lookup id = some v →
        v.MinimalIndexVersion.val ≤ m.GetMinimalIndexEngineVersion.val) ∧
      (m.GetMinimalIndexEngineVersion = zero32 ∨
        ∃ id v, m.versions.lookup id = some v ∧
          m.GetMinimalIndexEngineVersion = v.MinimalIndexVersion) := by
  unfold GetMinimalIndexEngineVersion
  by_cases hlen : m.len = 0
  · rw [if_pos hlen]
    exact ⟨le_refl _, fun id v hv => absurd hv (not_tracked_of_len_zero m hlen id v),
      Or.inl rfl⟩
  · rw [if_neg hlen]
    obtain ⟨l, hl, hfold⟩ := exists_entries_list minimalStep
      (fun d _ b₁ _ b₂ => by
        unfold minimalStep
        split_ifs <;> first | rfl | (apply Subtype.ext; omega)) zero32 m.versions
    rw [hfold]
    obtain ⟨hle, hall⟩ := foldl_minimalStep_ge l zero32
    refine ⟨hle, fun id v hv => hall ⟨id, v⟩ ((hl id v).1 hv), ?_⟩
    rcases foldl_minimalStep_mem l zero32 with hd | ⟨e, he, heq⟩
    · exact Or.inl hd
    · exact Or.inr ⟨e.1, e.2, (hl e.1 e.2).2 he, heq⟩

theorem getCurrent_le_of_lookup (m : IndexEngineVersionManager) (id : Int)
    (v : IndexEngineVersion) (hv : m.versions.lookup id = some v) :
    m.GetCurrentIndexEngineVersion.val ≤ v.CurrentIndexVersion.val := by
  unfold GetCurrentIndexEngineVersion
  rw [if_neg (len_ne_zero_of_lookup m id v hv)]
  obtain ⟨l, hl, hfold⟩ := exists_entries_list currentStep
    (fun d _ b₁ _ b₂ => by
      unfold currentStep
      split_ifs <;> first | rfl | (apply Subtype.ext; omega)) MaxInt32 m.versions
  rw [hfold]
  exact (foldl_currentStep_le l MaxInt32).2 ⟨id, v⟩ ((hl id v).1 hv)

/-- C17: `GetMinimalIndexEngineVersion` equals `max(0, m)`, with `m` the maximum
`MinimalIndexVersion` over the tracked nodes: it is never negative, it is at least every
tracked minimal version, it is 0 or the minimal version of a tracked node, and it is the
minimal version of a tracked node (the true maximum) as soon as one tracked node declares
a non-negative minimal version. -/
theorem getMinimal_eq_max_zero (m : IndexEngineVersionManager) :
    m.GetMinimalIndexEngineVersion.val = maxZeroMinimal m ∧
      0 ≤ m.GetMinimalIndexEngineVersion.val ∧
      (∀ id v, m.versions.lookup id = some v →
        v.MinimalIndexVersion.val ≤ m.GetMinimalIndexEngineVersion.val) ∧
      (m.GetMinimalIndexEngineVersion = zero32 ∨
        ∃ id v, m.versions.lookup id = some v ∧
          m.GetMinimalIndexEngineVersion = v.MinimalIndexVersion) ∧
      ((∃ id v, m.versions.lookup id = some v ∧ 0 ≤ v.MinimalIndexVersion.val) →
        ∃ id v, m.versions.lookup id = some v ∧
          m.GetMinimalIndexEngineVersion = v.MinimalIndexVersion) := by
  obtain ⟨hnn, hub, hatt⟩ := getMinimal_bounds m
  refine ⟨?_, hnn, hub, hatt, ?_⟩
  · apply le_antisymm
    · unfold maxZeroMinimal
      rw [Finset.le_fold_max]
      rcases hatt with h0 | ⟨id, v, hv, heq⟩
      · left; rw [h0]; exact le_refl _
      · right
        refine ⟨id, Finmap.mem_keys.2 (Finmap.mem_of_lookup_eq_some hv), ?_⟩
        rw [hv, heq]
    · unfold maxZeroMinimal
      rw [Finset.fold_max_le]
      refine ⟨hnn, fun id _ => ?_⟩
      cases hv : m.versions.lookup id with
      | none => exact hnn
      | some v => exact hub id v hv
  · rintro ⟨id0, v0, hv0, h0⟩
    rcases hatt with hz | hex
    · refine ⟨id0, v0, hv0, ?_⟩
      have h1 := hub id0 v0 hv0
      rw [hz] at h1 ⊢
      apply Subtype.ext
      have h3 : zero32.val = 0 := rfl
      omega
    · exact hex

/-- C18: adding a node whose identifier is not yet tracked only tightens the bounds:
`GetMinimalIndexEngineVersion` does not decrease; `GetCurrentIndexEngineVersion` does not
increase when a node was tracked before, and moves from 0 to the current version of the
added node when none was. -/
theorem addNode_tightens (m : IndexEngineVersionManager) (v : Session)
    (h : v.ServerID ∉ m.versions) :
    m.GetMinimalIndexEngineVersion.val ≤ (m.AddNode v).GetMinimalIndexEngineVersion.val ∧
      ((∃ id, id ∈ m.versions) →
        (m.AddNode v).GetCurrentIndexEngineVersion.val
          ≤ m.GetCurrentIndexEngineVersion.val) ∧
      ((∀ id, id ∉ m.versions) →
        m.GetCurrentIndexEngineVersion = zero32 ∧
          (m.AddNode v).GetCurrentIndexEngineVersion
            = v.IndexEngineVersion.CurrentIndexVersion) := by
  have hkeep : ∀ id w, m.versions.lookup id = some w →
      (m.AddNode v).versions.lookup id = some w := by
    intro id w hw
    have hne : id ≠ v.ServerID := fun heq => h (heq ▸ Finmap.mem_of_lookup_eq_some hw)
    exact (lookup_addOrUpdate_of_ne m v id hne).trans hw
  refine ⟨?_, ?_, ?_⟩
  · obtain ⟨hnn, hub, _⟩ := getMinimal_bounds (m.AddNode v)
    rcases (getMinimal_bounds m).2.2 with hz | ⟨id, w, hw, heq⟩
    · rw [hz]; exact hnn
    · rw [heq]; exact hub id w (hkeep id w hw)
  · rintro ⟨id0, hid0⟩
    obtain ⟨w0, hw0⟩ := Finmap.mem_iff.1 hid0
    obtain ⟨id, w, hw, heq⟩ := getCurrent_attained m id0 w0 hw0
    rw [heq]
    exact getCurrent_le_of_lookup (m.AddNode v) id w (hkeep id w hw)
  · intro hempty
    refine ⟨?_, ?_⟩
    · unfold GetCurrentIndexEngineVersion
      rw [if_pos ((len_eq_zero_iff m).2 hempty)]
    · obtain ⟨id, w, hw, heq⟩ := getCurrent_attained (m.AddNode v) v.ServerID
        v.IndexEngineVersion (lookup_addOrUpdate_self m v)
      by_cases hid : id = v.ServerID
      · subst hid
        rw [show (m.AddNode v).versions.lookup v.ServerID = some v.IndexEngineVersion from
          lookup_addOrUpdate_self m v] at hw
        cases hw
        exact heq
      · rw [show (m.AddNode v).versions.lookup id = m.versions.lookup id from
          lookup_addOrUpdate_of_ne m v id hid] at hw
        exact absurd (Finmap.mem_of_lookup_eq_some hw) (hempty id)

/-- The statement of C18 at the fleet `fleetAB` and the untracked node 3 declaring
(minimal 7, current 1). -/
theorem addNode_tightens_witness :
    (mkSession 3 7 1).ServerID ∉ fleetAB.versions ∧
      (fleetAB.GetMinimalIndexEngineVersion.val
          ≤ (fleetAB.AddNode (mkSession 3 7 1)).GetMinimalIndexEngineVersion.val ∧
        ((∃ id, id ∈ fleetAB.versions) →
          (fleetAB.AddNode (mkSession 3 7 1)).GetCurrentIndexEngineVersion.val
            ≤ fleetAB.GetCurrentIndexEngineVersion.val) ∧
        ((∀ id, id ∉ fleetAB.versions) →
          fleetAB.GetCurrentIndexEngineVersion = zero32 ∧
            (fleetAB.AddNode (mkSession 3 7 1)).GetCurrentIndexEngineVersion
              = (mkSession 3 7 1).IndexEngineVersion.CurrentIndexVersion)) :=
  ⟨by decide, addNode_tightens fleetAB (mkSession 3 7 1) (by decide)⟩

/-- C19: `Startup` merges into the map it finds: a node tracked before whose identifier
does not occur in the snapshot is tracked afterwards with the same pair, and both getters
after `Startup` still account for it (the current bound is at most its current version,
the minimal bound at least its minimal version). -/
theorem startup_keeps_other_nodes (m : IndexEngineVersionManager)
    (sessions : List (String × Session)) (id : Int) (v : IndexEngineVersion)
    (hv : m.versions.lookup id = some v)
    (hid : id ∉ sessions.map (fun e => e.2.ServerID)) :
    (m.Startup sessions).versions.lookup id = some v ∧
      (m.Startup sessions).GetCurrentIndexEngineVersion.val ≤ v.CurrentIndexVersion.val ∧
      v.MinimalIndexVersion.val ≤ (m.Startup sessions).GetMinimalIndexEngineVersion.val := by
  have hid2 : id ∉ (sessions.map Prod.snd).map Session.ServerID := by
    rw [List.map_map]; exact hid
  have hkeep : (m.Startup sessions).versions.lookup id = some v := by
    rw [startup_eq_foldl, lookup_foldl_addOrUpdate_of_not_mem _ m id hid2]
    exact hv
  exact ⟨hkeep, getCurrent_le_of_lookup _ id v hkeep, (getMinimal_bounds _).2.1 id v hkeep⟩

/-- The statement of C19 at the fleet `fleetAB`, its node 1 and the snapshot `snapshot2`,
which names node 2 only. -/
theorem startup_keeps_other_nodes_witness :
    fleetAB.versions.lookup 1 = some (mkSession 1 1 2).IndexEngineVersion ∧
      (1 : Int) ∉ snapshot2.map (fun e => e.2.ServerID) ∧
      ((fleetAB.Startup snapshot2).versions.lookup 1
          = some (mkSession 1 1 2).IndexEngineVersion ∧
        (fleetAB.Startup snapshot2).GetCurrentIndexEngineVersion.val
          ≤ (mkSession 1 1 2).IndexEngineVersion.CurrentIndexVersion.val ∧
        (mkSession 1 1 2).IndexEngineVersion.MinimalIndexVersion.val
          ≤ (fleetAB.Startup snapshot2).GetMinimalIndexEngineVersion.val) :=
  ⟨by decide, by decide,
    startup_keeps_other_nodes fleetAB snapshot2 1 (mkSession 1 1 2).IndexEngineVersion
      (by decide) (by decide)⟩

/-- C20: `AddNode v` followed by `RemoveNode` of the identifier of `v` gives back the whole
node map exactly when that identifier was not tracked before; when it was tracked the
entry it had is lost, since `AddNode` overwrites it and `RemoveNode` deletes it. -/
theorem addNode_removeNode_roundtrip (m : IndexEngineVersionManager) (v : Session) :
    (v.ServerID ∉ m.versions → (m.AddNode v).RemoveNode v = m) ∧
      (v.ServerID ∈ m.versions → (m.AddNode v).RemoveNode v ≠ m) ∧
      (v.ServerID ∉ m.versions →
        ((m.AddNode v).RemoveNode v).versions = m.versions) := by
  refine ⟨fun h => removeNode_addOrUpdate_of_not_mem m v h, fun h heq => ?_,
    fun h => congrArg IndexEngineVersionManager.versions
      (removeNode_addOrUpdate_of_not_mem m v h)⟩
  have h1 : v.ServerID ∉ ((m.AddNode v).RemoveNode v).versions :=
    Finmap.lookup_eq_none.1 (lookup_removeNode_self (m.AddNode v) v)
  rw [heq] at h1
  exact h1 h

/-- The statement of C20 at the fleet `fleetAB`: the round trip restores the map for the
untracked node 3 and does not restore it for the tracked node 1. -/
theorem addNode_removeNode_roundtrip_witness :
    ((mkSession 3 7 1).ServerID ∉ fleetAB.versions ∧
        (fleetAB.AddNode (mkSession 3 7 1)).RemoveNode (mkSession 3 7 1) = fleetAB) ∧
      ((mkSession 1 1 2).ServerID ∈ fleetAB.versions ∧
        (fleetAB.AddNode (mkSession 1 1 2)).RemoveNode (mkSession 1 1 2) ≠ fleetAB) :=
  ⟨⟨by decide, (addNode_removeNode_roundtrip fleetAB (mkSession 3 7 1)).1 (by decide)⟩,
    ⟨by decide, (addNode_removeNode_roundtrip fleetAB (mkSession 1 1 2)).2.1 (by decide)⟩⟩

end datacoord

namespace querycoordv2

open TargetManager

/-! ## Lemmas on the two indices -/

theorem lookup_eraseAll {α : Type} [DecidableEq α] {β : α → Type} (keys : Finset α)
    (m : Finmap β) (k : α) :
    (eraseAll keys m).lookup k = if k ∈ keys then none else m.lookup k := by
  unfold eraseAll
  induction keys using Finset.induction_on with
  | empty => simp
  | insert hnot ih =>
    rename_i a t
    rw [Finset.insert_val_of_not_mem hnot, Multiset.foldr_cons]
    by_cases hk : k = a
    · subst hk
      rw [Finmap.lookup_erase, if_pos (Finset.mem_insert_self _ _)]
    · rw [Finmap.lookup_erase_ne hk, ih]
      by_cases hkt : k ∈ t
      · rw [if_pos hkt, if_pos (Finset.mem_insert_of_mem hkt)]
      · rw [if_neg hkt, if_neg (fun h => (Finset.mem_insert.1 h).elim hk hkt)]

theorem mem_eraseAll {α : Type} [DecidableEq α] {β : α → Type} (keys : Finset α)
    (m : Finmap β) (k : α) : k ∈ eraseAll keys m ↔ k ∉ keys ∧ k ∈ m := by
  rw [← Finmap.lookup_isSome, lookup_eraseAll, ← Finmap.lookup_isSome]
  by_cases hk : k ∈ keys
  · simp [hk]
  · simp [hk]

theorem containSegment_eq_true (mgr : TargetManager) (id : Int) :
    mgr.ContainSegment id = true ↔ id ∈ mgr.segments := by
  unfold ContainSegment
  exact decide_eq_true_iff

theorem containSegment_eq_false (mgr : TargetManager) (id : Int) :
    mgr.ContainSegment id = false ↔ id ∉ mgr.segments := by
  unfold ContainSegment
  exact decide_eq_false_iff_not

theorem mem_bucket (mgr : TargetManager) (c p : Int) (s : SegmentInfo) :
    s ∈ mgr.bucket c p ↔ s ∈ mgr.collectionSegments ∧ s.CollectionID = c ∧ s.PartitionID = p := by
  unfold bucket
  exact Finset.mem_filter

theorem mem_getSegments_some (mgr : TargetManager) (c p : Int) (s : SegmentInfo) :
    s ∈ mgr.GetSegmentsByCollection c (some p) ↔
      s ∈ mgr.collectionSegments ∧ s.CollectionID = c ∧ s.PartitionID = p :=
  mem_bucket mgr c p s

theorem mem_getSegments_none (mgr : TargetManager) (c : Int) (s : SegmentInfo) :
    s ∈ mgr.GetSegmentsByCollection c none ↔ s ∈ mgr.collectionSegments ∧ s.CollectionID = c := by
  unfold GetSegmentsByCollection partitionsOf
  simp only [Finset.mem_biUnion, Finset.mem_image, Finset.mem_filter, mem_bucket]
  constructor
  · rintro ⟨p, _, hs, hc, _⟩
    exact ⟨hs, hc⟩
  · rintro ⟨hs, hc⟩
    exact ⟨s.PartitionID, ⟨s, ⟨hs, hc⟩, rfl⟩, hs, hc, rfl⟩

theorem mem_getSegments (mgr : TargetManager) (c : Int) (p : Option Int) (s : SegmentInfo) :
    s ∈ mgr.GetSegmentsByCollection c p → s ∈ mgr.collectionSegments ∧ s.CollectionID = c := by
  cases p with
  | none => exact (mem_getSegments_none mgr c s).1
  | some q => exact fun h => ⟨((mem_getSegments_some mgr c q s).1 h).1,
      ((mem_getSegments_some mgr c q s).1 h).2.1⟩

theorem mem_addSegment (mgr : TargetManager) (segment s : SegmentInfo) :
    s ∈ (mgr.AddSegment segment).collectionSegments ↔
      s = segment ∨ (s ∈ mgr.collectionSegments ∧ mgr.segments.lookup segment.ID ≠ some s) := by
  unfold AddSegment
  dsimp only
  cases h : mgr.segments.lookup segment.ID with
  | none => simp [Finset.mem_insert]
  | some old =>
    simp only [Finset.mem_insert, Finset.mem_erase, ne_eq, Option.some.injEq]
    constructor
    · rintro (h1 | ⟨h1, h2⟩)
      · exact Or.inl h1
      · exact Or.inr ⟨h2, fun h3 => h1 h3.symm⟩
    · rintro (h1 | ⟨h1, h2⟩)
      · exact Or.inl h1
      · exact Or.inr ⟨fun h3 => h2 h3.symm, h1⟩

theorem consistent_new : DualIndexConsistent NewTargetManager := by
  unfold DualIndexConsistent NewTargetManager
  simp [Finmap.lookup_empty]

theorem consistent_addDmChannel (mgr : TargetManager) (channel : DmChannel)
    (h : DualIndexConsistent mgr) : DualIndexConsistent (mgr.AddDmChannel channel) := h

theorem consistent_addSegment (mgr : TargetManager) (segment : SegmentInfo)
    (h : DualIndexConsistent mgr) : DualIndexConsistent (mgr.AddSegment segment) := by
  obtain ⟨h1, h2⟩ := h
  have hflat : (mgr.AddSegment segment).segments = mgr.segments.insert segment.ID segment := rfl
  refine ⟨fun s => ?_, fun k s hs => ?_⟩
  · rw [mem_addSegment, hflat]
    by_cases hid : s.ID = segment.ID
    · rw [hid, Finmap.lookup_insert]
      constructor
      · rintro (rfl | ⟨hs, hne⟩)
        · rfl
        · exact absurd (hid ▸ (h1 s).1 hs) hne
      · intro heq
        exact Or.inl (Option.some.inj heq).symm
    · rw [Finmap.lookup_insert_of_ne _ hid]
      constructor
      · rintro (rfl | ⟨hs, _⟩)
        · exact absurd rfl hid
        · exact (h1 s).1 hs
      · intro hs
        refine Or.inr ⟨(h1 s).2 hs, fun hold => hid (h2 _ _ hold)⟩
  · rw [hflat] at hs
    by_cases hk : k = segment.ID
    · subst hk
      rw [Finmap.lookup_insert] at hs
      exact (Option.some.inj hs) ▸ rfl
    · rw [Finmap.lookup_insert_of_ne _ hk] at hs
      exact h2 k s hs

theorem consistent_removeSegment (mgr : TargetManager) (segmentID : Int)
    (h : DualIndexConsistent mgr) : DualIndexConsistent (mgr.RemoveSegment segmentID) := by
  obtain ⟨h1, h2⟩ := h
  unfold RemoveSegment
  cases hl : mgr.segments.lookup segmentID with
  | none => exact ⟨h1, h2⟩
  | some seg =>
    dsimp only
    refine ⟨fun s => ?_, fun k s hs => ?_⟩
    · rw [Finset.mem_erase]
      by_cases hid : s.ID = segmentID
      · rw [hid, Finmap.lookup_erase]
        constructor
        · rintro ⟨hne, hs⟩
          have := (h1 s).1 hs
          rw [hid, hl] at this
          exact absurd (Option.some.inj this).symm hne
        · intro hn; cases hn
      · rw [Finmap.lookup_erase_ne hid]
        constructor
        · exact fun hs => (h1 s).1 hs.2
        · intro hs
          refine ⟨fun heq => hid ?_, (h1 s).2 hs⟩
          rw [heq]
          exact h2 _ _ hl
    · by_cases hk : k = segmentID
      · subst hk
        rw [Finmap.lookup_erase] at hs
        cases hs
      · rw [Finmap.lookup_erase_ne hk] at hs
        exact h2 k s hs

theorem consistent_of_eraseFiled (mgr after : TargetManager) (P : SegmentInfo → Prop)
    [DecidablePred P] (h : DualIndexConsistent mgr)
    (hflat : after.segments = eraseAll
      ((mgr.collectionSegments.filter P).image (fun s => s.ID)) mgr.segments)
    (hchain : after.collectionSegments = mgr.collectionSegments.filter (fun s => ¬ P s)) :
    DualIndexConsistent after := by
  obtain ⟨h1, h2⟩ := h
  have hout : ∀ s, s ∈ mgr.collectionSegments → ¬ P s →
      s.ID ∉ (mgr.collectionSegments.filter P).image (fun s => s.ID) := by
    intro s hs hP hmem
    obtain ⟨t, ht, hid⟩ := Finset.mem_image.1 hmem
    obtain ⟨htc, htP⟩ := Finset.mem_filter.1 ht
    have e1 := (h1 t).1 htc
    have e2 := (h1 s).1 hs
    rw [show t.ID = s.ID from hid, e2] at e1
    exact hP ((Option.some.inj e1) ▸ htP)
  refine ⟨fun s => ?_, fun k s hs => ?_⟩
  · rw [hchain, hflat, lookup_eraseAll, Finset.mem_filter]
    constructor
    · rintro ⟨hs, hP⟩
      rw [if_neg (hout s hs hP)]
      exact (h1 s).1 hs
    · intro hs
      by_cases hmem : s.ID ∈ (mgr.collectionSegments.filter P).image (fun s => s.ID)
      · rw [if_pos hmem] at hs; cases hs
      · rw [if_neg hmem] at hs
        refine ⟨(h1 s).2 hs, fun hP => hmem ?_⟩
        exact Finset.mem_image.2 ⟨s, Finset.mem_filter.2 ⟨(h1 s).2 hs, hP⟩, rfl⟩
  · rw [hflat, lookup_eraseAll] at hs
    by_cases hmem : k ∈ (mgr.collectionSegments.filter P).image (fun s => s.ID)
    · rw [if_pos hmem] at hs; cases hs
    · rw [if_neg hmem] at hs
      exact h2 k s hs

theorem consistent_removePartition (mgr : TargetManager) (partitionID : Int)
    (h : DualIndexConsistent mgr) : DualIndexConsistent (mgr.RemovePartition partitionID) :=
  consistent_of_eraseFiled mgr _ (fun s => s.PartitionID = partitionID) h rfl rfl

theorem consistent_removeCollection (mgr : TargetManager) (collectionID : Int)
    (h : DualIndexConsistent mgr) : DualIndexConsistent (mgr.RemoveCollection collectionID) :=
  consistent_of_eraseFiled mgr _ (fun s => s.CollectionID = collectionID) h rfl rfl

theorem reachable_consistent (mgr : TargetManager) (h : Reachable mgr) :
    DualIndexConsistent mgr := by
  induction h with
  | newTargetManager => exact consistent_new
  | addDmChannel mgr channel _ ih => exact consistent_addDmChannel mgr channel ih
  | addSegment mgr segment _ ih => exact consistent_addSegment mgr segment ih
  | removeSegment mgr segmentID _ ih => exact consistent_removeSegment mgr segmentID ih
  | removePartition mgr partitionID _ ih => exact consistent_removePartition mgr partitionID ih
  | removeCollection mgr collectionID _ ih =>
    exact consistent_removeCollection mgr collectionID ih

theorem reachable_smallIndex : Reachable smallIndex :=
  Reachable.addSegment _ _ (Reachable.addSegment _ _ (Reachable.addSegment _ _
    (Reachable.addDmChannel _ _ Reachable.newTargetManager)))

/-! ## Adding a segment -/

/-- C10: after `AddSegment` of a segment descriptor, `ContainSegment` of its identifier is
true, and the descriptor, hence a segment with that identifier, is listed by
`GetSegmentsByCollection` for its collection and partition and by
`GetSegmentsByCollection` for its collection without a partition filter. -/
theorem addSegment_contained_and_listed (mgr : TargetManager) (segment : SegmentInfo) :
    (mgr.AddSegment segment).ContainSegment segment.ID = true ∧
      segment ∈ (mgr.AddSegment segment).GetSegmentsByCollection segment.CollectionID
        (some segment.PartitionID) ∧
      segment ∈ (mgr.AddSegment segment).GetSegmentsByCollection segment.CollectionID none ∧
      (∃ s ∈ (mgr.AddSegment segment).GetSegmentsByCollection segment.CollectionID
        (some segment.PartitionID), s.ID = segment.ID) ∧
      (∃ s ∈ (mgr.AddSegment segment).GetSegmentsByCollection segment.CollectionID none,
        s.ID = segment.ID) := by
  have hmem : segment ∈ (mgr.AddSegment segment).collectionSegments := by
    unfold AddSegment
    dsimp only
    split <;> exact Finset.mem_insert_self _ _
  have hbucket : segment ∈ (mgr.AddSegment segment).bucket segment.CollectionID
      segment.PartitionID := by
    unfold bucket
    exact Finset.mem_filter.2 ⟨hmem, rfl, rfl⟩
  have hpart : segment.PartitionID ∈ (mgr.AddSegment segment).partitionsOf
      segment.CollectionID := by
    unfold partitionsOf
    exact Finset.mem_image.2 ⟨segment, Finset.mem_filter.2 ⟨hmem, rfl⟩, rfl⟩
  have hall : segment ∈ (mgr.AddSegment segment).GetSegmentsByCollection
      segment.CollectionID none := by
    unfold GetSegmentsByCollection
    exact Finset.mem_biUnion.2 ⟨segment.PartitionID, hpart, hbucket⟩
  refine ⟨?_, hbucket, hall, ⟨segment, hbucket, rfl⟩, ⟨segment, hall, rfl⟩⟩
  unfold ContainSegment AddSegment
  exact decide_eq_true (Finmap.mem_insert.2 (Or.inl rfl))

/-! ## Removal -/

/-- C11: in every state of the target index, after `RemoveSegment` of a segment identifier
`ContainSegment` of it is false and no listing of `GetSegmentsByCollection`, with or
without a partition filter, has a segment with that identifier; when the identifier was
not present the state is unchanged. -/
theorem removeSegment_absent (mgr : TargetManager) (h : Reachable mgr) (segID : Int) :
    (mgr.RemoveSegment segID).ContainSegment segID = false ∧
      (∀ (c : Int) (p : Option Int), ∀ s ∈ (mgr.RemoveSegment segID).GetSegmentsByCollection c p,
        s.ID ≠ segID) ∧
      (mgr.ContainSegment segID = false → mgr.RemoveSegment segID = mgr) := by
  have hafter := reachable_consistent _ (Reachable.removeSegment mgr segID h)
  have hflat : segID ∉ (mgr.RemoveSegment segID).segments := by
    unfold RemoveSegment
    cases hl : mgr.segments.lookup segID with
    | none => exact Finmap.lookup_eq_none.1 hl
    | some seg => exact Finmap.not_mem_erase_self
  refine ⟨(containSegment_eq_false _ _).2 hflat, fun c p s hs hid => ?_, fun hno => ?_⟩
  · have hmem := (hafter.1 s).1 (mem_getSegments _ c p s hs).1
    rw [hid] at hmem
    exact hflat (Finmap.mem_of_lookup_eq_some hmem)
  · have hnone := Finmap.lookup_eq_none.2 ((containSegment_eq_false _ _).1 hno)
    unfold RemoveSegment
    rw [hnone]

/-- The statement of C11 at the index holding segments 1 and 2 of collection 1000,
partition 100, and segment 1. -/
theorem removeSegment_absent_witness :
    Reachable ((NewTargetManager.AddSegment ⟨1, 1000, 100⟩).AddSegment ⟨2, 1000, 100⟩) ∧
      ((((NewTargetManager.AddSegment ⟨1, 1000, 100⟩).AddSegment
          ⟨2, 1000, 100⟩).RemoveSegment 1).ContainSegment 1 = false ∧
        (∀ (c : Int) (p : Option Int),
          ∀ s ∈ (((NewTargetManager.AddSegment ⟨1, 1000, 100⟩).AddSegment
            ⟨2, 1000, 100⟩).RemoveSegment 1).GetSegmentsByCollection c p, s.ID ≠ 1) ∧
        (((NewTargetManager.AddSegment ⟨1, 1000, 100⟩).AddSegment
            ⟨2, 1000, 100⟩).ContainSegment 1 = false →
          ((NewTargetManager.AddSegment ⟨1, 1000, 100⟩).AddSegment
            ⟨2, 1000, 100⟩).RemoveSegment 1
            = (NewTargetManager.AddSegment ⟨1, 1000, 100⟩).AddSegment ⟨2, 1000, 100⟩)) :=
  ⟨Reachable.addSegment _ _ (Reachable.addSegment _ _ Reachable.newTargetManager),
    removeSegment_absent _
      (Reachable.addSegment _ _ (Reachable.addSegment _ _ Reachable.newTargetManager)) 1⟩

/-- C12: in every state of the target index, `RemovePartition p` removes exactly the
segments filed under `p`: afterwards the listing of `p` is empty for every collection and
the segments that were filed under `p` are not contained; every segment filed under
another partition is still contained and still listed under its collection and partition
(and under its collection alone); every listing is the listing before without the segments
of `p`; `ContainDmChannel` and `GetDmChannelsByCollection` give the results they gave
before. -/
theorem removePartition_exact (mgr : TargetManager) (h : Reachable mgr) (p : Int) :
    (∀ c, (mgr.RemovePartition p).GetSegmentsByCollection c (some p) = ∅) ∧
      (∀ s ∈ mgr.collectionSegments, s.PartitionID = p →
        (mgr.RemovePartition p).ContainSegment s.ID = false) ∧
      (∀ s ∈ mgr.collectionSegments, s.PartitionID ≠ p →
        (mgr.RemovePartition p).ContainSegment s.ID = true ∧
          s ∈ (mgr.RemovePartition p).GetSegmentsByCollection s.CollectionID
            (some s.PartitionID) ∧
          s ∈ (mgr.RemovePartition p).GetSegmentsByCollection s.CollectionID none) ∧
      (∀ (c : Int) (q : Option Int) (s : SegmentInfo),
        s ∈ (mgr.RemovePartition p).GetSegmentsByCollection c q ↔
          s ∈ mgr.GetSegmentsByCollection c q ∧ s.PartitionID ≠ p) ∧
      (∀ name, (mgr.RemovePartition p).ContainDmChannel name = mgr.ContainDmChannel name) ∧
      (∀ c, (mgr.RemovePartition p).GetDmChannelsByCollection c
        = mgr.GetDmChannelsByCollection c) := by
  have hafter := reachable_consistent _ (Reachable.removePartition mgr p h)
  have hchain : ∀ s, s ∈ (mgr.RemovePartition p).collectionSegments ↔
      s ∈ mgr.collectionSegments ∧ s.PartitionID ≠ p := fun s => Finset.mem_filter
  have hflat : (mgr.RemovePartition p).segments = eraseAll
      ((mgr.collectionSegments.filter (fun s => s.PartitionID = p)).image (fun s => s.ID))
      mgr.segments := rfl
  refine ⟨fun c => ?_, fun s hs hp => ?_, fun s hs hp => ?_, fun c q s => ?_,
    fun _ => rfl, fun _ => rfl⟩
  · apply Finset.eq_empty_iff_forall_not_mem.2
    intro s hs
    obtain ⟨hmem, _, hp⟩ := (mem_getSegments_some _ c p s).1 hs
    exact ((hchain s).1 hmem).2 hp
  · rw [containSegment_eq_false, hflat, mem_eraseAll]
    exact fun hno => hno.1 (Finset.mem_image.2 ⟨s, Finset.mem_filter.2 ⟨hs, hp⟩, rfl⟩)
  · have hmem : s ∈ (mgr.RemovePartition p).collectionSegments := (hchain s).2 ⟨hs, hp⟩
    refine ⟨?_, (mem_getSegments_some _ _ _ s).2 ⟨hmem, rfl, rfl⟩,
      (mem_getSegments_none _ _ s).2 ⟨hmem, rfl⟩⟩
    rw [containSegment_eq_true]
    exact Finmap.mem_of_lookup_eq_some ((hafter.1 s).1 hmem)
  · cases q with
    | none =>
      rw [mem_getSegments_none, mem_getSegments_none, hchain]
      tauto
    | some q =>
      rw [mem_getSegments_some, mem_getSegments_some, hchain]
      tauto

/-- The statement of C12 at the index `smallIndex` and partition 100. -/
theorem removePartition_exact_witness :
    Reachable smallIndex ∧
      ((∀ c, (smallIndex.RemovePartition 100).GetSegmentsByCollection c (some 100) = ∅) ∧
        (∀ s ∈ smallIndex.collectionSegments, s.PartitionID = 100 →
          (smallIndex.RemovePartition 100).ContainSegment s.ID = false) ∧
        (∀ s ∈ smallIndex.collectionSegments, s.PartitionID ≠ 100 →
          (smallIndex.RemovePartition 100).ContainSegment s.ID = true ∧
            s ∈ (smallIndex.RemovePartition 100).GetSegmentsByCollection s.CollectionID
              (some s.PartitionID) ∧
            s ∈ (smallIndex.RemovePartition 100).GetSegmentsByCollection s.CollectionID none) ∧
        (∀ (c : Int) (q : Option Int) (s : SegmentInfo),
          s ∈ (smallIndex.RemovePartition 100).GetSegmentsByCollection c q ↔
            s ∈ smallIndex.GetSegmentsByCollection c q ∧ s.PartitionID ≠ 100) ∧
        (∀ name, (smallIndex.RemovePartition 100).ContainDmChannel name
          = smallIndex.ContainDmChannel name) ∧
        (∀ c, (smallIndex.RemovePartition 100).GetDmChannelsByCollection c
          = smallIndex.GetDmChannelsByCollection c)) :=
  ⟨reachable_smallIndex, removePartition_exact smallIndex reachable_smallIndex 100⟩

/-- C13: after `RemoveCollection c` the channel listing of `c` and the segment listings of
`c`, with or without a partition filter, are empty, and no channel and no segment that was
listed under `c` is reported by `ContainDmChannel` or `ContainSegment`. -/
theorem removeCollection_clears (mgr : TargetManager) (c : Int) :
    (mgr.RemoveCollection c).GetDmChannelsByCollection c = ∅ ∧
      (∀ p : Option Int, (mgr.RemoveCollection c).GetSegmentsByCollection c p = ∅) ∧
      (∀ ch ∈ mgr.GetDmChannelsByCollection c,
        (mgr.RemoveCollection c).ContainDmChannel ch.ChannelName = false) ∧
      (∀ p : Option Int, ∀ s ∈ mgr.GetSegmentsByCollection c p,
        (mgr.RemoveCollection c).ContainSegment s.ID = false) := by
  refine ⟨?_, fun p => ?_, fun ch hch => ?_, fun p s hs => ?_⟩
  · apply Finset.eq_empty_iff_forall_not_mem.2
    intro ch hch
    unfold GetDmChannelsByCollection RemoveCollection at hch
    obtain ⟨h1, h2⟩ := Finset.mem_filter.1 hch
    exact (Finset.mem_filter.1 h1).2 h2
  · apply Finset.eq_empty_iff_forall_not_mem.2
    intro s hs
    obtain ⟨h1, h2⟩ := mem_getSegments _ c p s hs
    have h3 : s ∈ mgr.collectionSegments.filter (fun s => s.CollectionID ≠ c) := h1
    exact (Finset.mem_filter.1 h3).2 h2
  · unfold ContainDmChannel
    apply decide_eq_false
    have hflat : (mgr.RemoveCollection c).dmChannels = eraseAll
        ((mgr.collectionChannels.filter (fun ch => ch.CollectionID = c)).image
          (fun ch => ch.ChannelName)) mgr.dmChannels := rfl
    rw [hflat, mem_eraseAll]
    exact fun hno => hno.1 (Finset.mem_image.2 ⟨ch, hch, rfl⟩)
  · rw [containSegment_eq_false]
    have hflat : (mgr.RemoveCollection c).segments = eraseAll
        ((mgr.collectionSegments.filter (fun s => s.CollectionID = c)).image (fun s => s.ID))
        mgr.segments := rfl
    rw [hflat, mem_eraseAll]
    obtain ⟨h1, h2⟩ := mem_getSegments _ c p s hs
    exact fun hno => hno.1 (Finset.mem_image.2 ⟨s, Finset.mem_filter.2 ⟨h1, h2⟩, rfl⟩)

/-! ## The dual-index invariant -/

/-- C14: dual-index consistency is an invariant of the target index. It holds in the empty
index and each of `AddDmChannel`, `AddSegment`, `RemoveSegment`, `RemovePartition`,
`RemoveCollection` preserves it, so it holds in every reachable state; and in every
reachable state a segment identifier is reported by `ContainSegment` if and only if a
segment with that identifier is listed by `GetSegmentsByCollection` for some collection
and partition. -/
theorem dualIndex_invariant :
    DualIndexConsistent NewTargetManager ∧
      (∀ mgr channel, DualIndexConsistent mgr → DualIndexConsistent (mgr.AddDmChannel channel)) ∧
      (∀ mgr segment, DualIndexConsistent mgr → DualIndexConsistent (mgr.AddSegment segment)) ∧
      (∀ mgr segmentID, DualIndexConsistent mgr →
        DualIndexConsistent (mgr.RemoveSegment segmentID)) ∧
      (∀ mgr partitionID, DualIndexConsistent mgr →
        DualIndexConsistent (mgr.RemovePartition partitionID)) ∧
      (∀ mgr collectionID, DualIndexConsistent mgr →
        DualIndexConsistent (mgr.RemoveCollection collectionID)) ∧
      (∀ mgr, Reachable mgr → DualIndexConsistent mgr) ∧
      (∀ mgr, Reachable mgr → ∀ id : Int,
        (mgr.ContainSegment id = true ↔
          ∃ c p, ∃ s ∈ mgr.GetSegmentsByCollection c (some p), s.ID = id)) := by
  refine ⟨consistent_new, consistent_addDmChannel, consistent_addSegment,
    consistent_removeSegment, consistent_removePartition, consistent_removeCollection,
    reachable_consistent, fun mgr hr id => ?_⟩
  obtain ⟨h1, h2⟩ := reachable_consistent mgr hr
  rw [containSegment_eq_true]
  constructor
  · intro hid
    obtain ⟨s, hs⟩ := Finmap.mem_iff.1 hid
    have hsid : s.ID = id := h2 id s hs
    have hmem : s ∈ mgr.collectionSegments := (h1 s).2 (hsid ▸ hs)
    exact ⟨s.CollectionID, s.PartitionID, s,
      (mem_getSegments_some mgr _ _ s).2 ⟨hmem, rfl, rfl⟩, hsid⟩
  · rintro ⟨c, p, s, hs, hsid⟩
    have hmem := ((mem_getSegments_some mgr c p s).1 hs).1
    exact hsid ▸ Finmap.mem_of_lookup_eq_some ((h1 s).1 hmem)

/-- The last part of C14 at the reachable index `smallIndex` and segment identifier 3. -/
theorem dualIndex_invariant_witness :
    Reachable smallIndex ∧
      (smallIndex.ContainSegment 3 = true ↔
        ∃ c p, ∃ s ∈ smallIndex.GetSegmentsByCollection c (some p), s.ID = 3) :=
  ⟨reachable_smallIndex, dualIndex_invariant.2.2.2.2.2.2.2 smallIndex reachable_smallIndex 3⟩

/-! ## Listings -/

/-- C15: `GetSegmentsByCollection c` without a partition filter is the union over the
partitions of the listings with a partition filter: a segment is in it exactly when it is
in the listing of some partition of `c`, its size is the sum of the sizes of the listings
of the partitions of `c` (nothing is listed twice), every segment in it belongs to `c`;
and a listing is empty when no segment is filed under the collection, or under the
partition of the collection. -/
theorem getSegments_union (mgr : TargetManager) (c : Int) :
    (∀ s, s ∈ mgr.GetSegmentsByCollection c none ↔
        ∃ p, s ∈ mgr.GetSegmentsByCollection c (some p)) ∧
      mgr.GetSegmentsByCollection c none
        = (mgr.partitionsOf c).biUnion (fun p => mgr.GetSegmentsByCollection c (some p)) ∧
      (mgr.GetSegmentsByCollection c none).card
        = Finset.sum (mgr.partitionsOf c)
            (fun p => (mgr.GetSegmentsByCollection c (some p)).card) ∧
      (∀ s ∈ mgr.GetSegmentsByCollection c none, s.CollectionID = c) ∧
      ((∀ s ∈ mgr.collectionSegments, s.CollectionID ≠ c) →
        ∀ p : Option Int, mgr.GetSegmentsByCollection c p = ∅) ∧
      (∀ p : Int, (∀ s ∈ mgr.collectionSegments, s.CollectionID = c → s.PartitionID ≠ p) →
        mgr.GetSegmentsByCollection c (some p) = ∅) := by
  refine ⟨fun s => ?_, rfl, ?_, fun s hs => ((mem_getSegments_none mgr c s).1 hs).2,
    fun hno p => ?_, fun p hno => ?_⟩
  · rw [mem_getSegments_none]
    constructor
    · rintro ⟨hs, hc⟩
      exact ⟨s.PartitionID, (mem_getSegments_some mgr c _ s).2 ⟨hs, hc, rfl⟩⟩
    · rintro ⟨p, hp⟩
      exact ⟨((mem_getSegments_some mgr c p s).1 hp).1, ((mem_getSegments_some mgr c p s).1 hp).2.1⟩
  · show ((mgr.partitionsOf c).biUnion (fun p => mgr.GetSegmentsByCollection c (some p))).card = _
    apply Finset.card_biUnion
    intro x _ y _ hxy
    rw [Finset.disjoint_left]
    intro s hsx hsy
    exact hxy (((mem_getSegments_some mgr c x s).1 hsx).2.2.symm.trans
      ((mem_getSegments_some mgr c y s).1 hsy).2.2)
  · apply Finset.eq_empty_iff_forall_not_mem.2
    intro s hs
    obtain ⟨h1, h2⟩ := mem_getSegments mgr c p s hs
    exact hno s h1 h2
  · apply Finset.eq_empty_iff_forall_not_mem.2
    intro s hs
    obtain ⟨h1, h2, h3⟩ := (mem_getSegments_some mgr c p s).1 hs
    exact hno s h1 h2 h3

/-! ## The test suite's scenario -/

/-- C16: the suite's scenario. From the index `SetupTest` builds (segments 1 to 8, four
channels), `TestRemove` (segments 1,
3, 5, 7 removed, then partitions 100 and 102, then collection 1000), whatever the order in
which the loops visit the collections and the partitions, ends in the index that holds
exactly segment 8, listed under collection 1001 and partition 103, and exactly the two
channels of collection 1001; `ContainSegment` is false for 1 to 7 and the listings of
collection 1000 are empty. -/
theorem testRemove_final :
    ∀ c₁ c₂ c₃ p₁ p₂ p₃ p₄ : Bool,
      (SetupTest (collectionOrder c₁) (collectionOrder c₂)
          (partitionOrders p₁ p₂)).segments.keys = {1, 2, 3, 4, 5, 6, 7, 8} ∧
        (SetupTest (collectionOrder c₁) (collectionOrder c₂)
          (partitionOrders p₁ p₂)).dmChannels.keys
          = {"1000-dmc0", "1000-dmc1", "1001-dmc0", "1001-dmc1"} ∧
        TestRemove (SetupTest (collectionOrder c₁) (collectionOrder c₂) (partitionOrders p₁ p₂))
          (collectionOrder c₃) (partitionOrders p₃ p₄) = afterTestRemove ∧
        afterTestRemove.segments.keys = {8} ∧
        afterTestRemove.collectionSegments = {⟨8, 1001, 103⟩} ∧
        afterTestRemove.GetSegmentsByCollection 1001 (some 103) = {⟨8, 1001, 103⟩} ∧
        afterTestRemove.GetSegmentsByCollection 1001 none = {⟨8, 1001, 103⟩} ∧
        afterTestRemove.dmChannels.keys = {"1001-dmc0", "1001-dmc1"} ∧
        afterTestRemove.GetDmChannelsByCollection 1001
          = {⟨1001, "1001-dmc0"⟩, ⟨1001, "1001-dmc1"⟩} ∧
        (∀ id ∈ [1, 2, 3, 4, 5, 6, 7], afterTestRemove.ContainSegment id = false) ∧
        afterTestRemove.ContainSegment 8 = true ∧
        afterTestRemove.GetDmChannelsByCollection 1000 = ∅ ∧
        afterTestRemove.GetSegmentsByCollection 1000 none = ∅ := by
  decide

end querycoordv2
